import Mathlib

/-!
Verification of the Narrative Memory and Consistency Engine of the mythos-api
backend, as implemented in src/app (llm_client.py, hints.py, story_routes.py,
crud.py).  Python strings are embedded as List Char; the regex operations used
by the source (re.search and re.sub over fixed delimiter patterns) are embedded
as executable scanning functions with matching leftmost or shortest semantics.
Whitespace and digit classes are modelled over ASCII, which covers every string
the source itself manipulates.
-/

/-- ASCII whitespace, the characters Python str.strip and str.split treat as
separators (space, tab, newline, carriage return, vertical tab, form feed). -/
def isSpaceChar (c : Char) : Bool :=
  c == ' ' || c == '\t' || c == '\n' || c == '\r' || c == Char.ofNat 11 || c == Char.ofNat 12

/-- Python str.strip: remove leading and trailing whitespace. -/
def pyStrip (s : List Char) : List Char :=
  ((s.dropWhile isSpaceChar).reverse.dropWhile isSpaceChar).reverse

/-- Leftmost occurrence search: splitFirst pat s finds the first index where pat
occurs as a contiguous substring of s and returns the text before and after it,
so that s equals before, pat, after concatenated.  This is the embedding of the
leftmost-match behaviour of re.search for a literal pattern. -/
def splitFirst (pat : List Char) : List Char → Option (List Char × List Char)
  | [] => if pat.isEmpty then some ([], []) else none
  | c :: rest =>
    if pat.isPrefixOf (c :: rest) then some ([], (c :: rest).drop pat.length)
    else (splitFirst pat rest).map (fun pr => (c :: pr.1, pr.2))

/-- Whether pat occurs as a contiguous substring of s. -/
def occursIn (pat s : List Char) : Bool :=
  (splitFirst pat s).isSome

def openTag : List Char := "<WRLD>".toList

def closeTag : List Char := "</WRLD>".toList

/-- The group captured by re.search of the pattern openTag (.*?) closeTag with
DOTALL, as used at llm_client.py lines 231 and 263: the text between the first
occurrence of the opening delimiter and the first closing delimiter after it. -/
def extractWrldBlock (raw : List Char) : Option (List Char) :=
  match splitFirst openTag raw with
  | none => none
  | some (_, rest) =>
    match splitFirst closeTag rest with
    | none => none
    | some (block, _) => some block

/-- Fuel-indexed worker for stripWrld; the fuel only bounds recursion depth and
is always sufficient when it is at least the length of the input. -/
def stripWrldGo : Nat → List Char → List Char
  | 0, s => s
  | fuel + 1, s =>
    match splitFirst openTag s with
    | none => s
    | some (pre, rest) =>
      match splitFirst closeTag rest with
      | none => s
      | some (_, post) => pre ++ stripWrldGo fuel post

/-- The embedding of re.sub removing every non-overlapping leftmost-shortest
match of the openTag (.*?) closeTag pattern (llm_client.py line 181): delete
from each leftmost opening delimiter through the first closing delimiter after
it, then continue scanning after the deleted span. -/
def stripWrld (s : List Char) : List Char :=
  stripWrldGo s.length s

/-- The visible text computed by generate_story at llm_client.py line 181:
the raw output with every metadata block removed by re.sub, then stripped. -/
def clean_output (raw_output : List Char) : List Char :=
  pyStrip (stripWrld raw_output)

/-- Python dict.get with default 0, over an association list. -/
def dGet : List (List Char × Nat) → List Char → Nat
  | [], _ => 0
  | (k, v) :: rest, key => if key = k then v else dGet rest key

/-- Python int applied to a run of ASCII digits. -/
def natOfDigits (ds : List Char) : Nat :=
  ds.foldl (fun acc c => acc * 10 + (c.toNat - 48)) 0

/-- One anchored attempt of the pattern key then optional whitespace, a colon,
optional whitespace, and a maximal nonempty digit run, at the start of s. -/
def matchKeyNumAt (key s : List Char) : Option Nat :=
  if key.isPrefixOf s then
    match (s.drop key.length).dropWhile isSpaceChar with
    | ':' :: r2 =>
      let ds := (r2.dropWhile isSpaceChar).takeWhile Char.isDigit
      if ds.isEmpty then none else some (natOfDigits ds)
    | _ => none
  else none

/-- re.search of the pattern key backslash-s star colon backslash-s star digits,
as in parse_wrld_violations (llm_client.py line 238): the leftmost position
where the whole pattern matches, returning the parsed count. -/
def searchKeyNum (key : List Char) : List Char → Option Nat
  | [] => matchKeyNumAt key []
  | c :: rest =>
    match matchKeyNumAt key (c :: rest) with
    | some n => some n
    | none => searchKeyNum key rest

/-- The count parsed for one category inside the metadata block, defaulting to
0 when the line is missing or malformed. -/
def countOf (key block : List Char) : Nat :=
  match searchKeyNum key block with
  | some n => n
  | none => 0

/-- The four violation categories, in the order of the dict literal at
llm_client.py lines 224 to 229. -/
def categoryKeys : List (List Char) :=
  ["CHARACTER_INCONSISTENCY", "TIMELINE_CONTRADICTION",
   "WORLD_RULE_VIOLATION", "IGNORED_FACT"].map String.toList

/-- parse_wrld_violations (llm_client.py lines 219 to 242): initialise all four
categories to 0; if the raw output has no metadata block return the zero
report; otherwise fill each category from the first block. -/
def parse_wrld_violations (raw : List Char) : List (List Char × Nat) :=
  match extractWrldBlock raw with
  | none => categoryKeys.map (fun k => (k, 0))
  | some block => categoryKeys.map (fun k => (k, countOf k block))

/-- compute_nsi (llm_client.py lines 245 to 255): deterministic Narrative
Stability Index derived from the violation counts, floored at 0. -/
def compute_nsi (violations : List (List Char × Nat)) : Int :=
  let score : Int := 100
    - 10 * (dGet violations ("CHARACTER_INCONSISTENCY".toList) : Int)
    - 10 * (dGet violations ("TIMELINE_CONTRADICTION".toList) : Int)
    - 15 * (dGet violations ("WORLD_RULE_VIOLATION".toList) : Int)
    - 5 * (dGet violations ("IGNORED_FACT".toList) : Int)
  max score 0

/-- A violation report binding the four categories, in dict-literal order. -/
def mkReport (c t w i : Nat) : List (List Char × Nat) :=
  [("CHARACTER_INCONSISTENCY".toList, c), ("TIMELINE_CONTRADICTION".toList, t),
   ("WORLD_RULE_VIOLATION".toList, w), ("IGNORED_FACT".toList, i)]

theorem dGet_mkReport_char (c t w i : Nat) :
    dGet (mkReport c t w i) ("CHARACTER_INCONSISTENCY".toList) = c := by
  simp [mkReport, dGet]

theorem dGet_mkReport_time (c t w i : Nat) :
    dGet (mkReport c t w i) ("TIMELINE_CONTRADICTION".toList) = t := by
  simp only [mkReport, dGet]
  rw [if_neg (by decide)]
  simp

theorem dGet_mkReport_world (c t w i : Nat) :
    dGet (mkReport c t w i) ("WORLD_RULE_VIOLATION".toList) = w := by
  simp only [mkReport, dGet]
  rw [if_neg (by decide), if_neg (by decide)]
  simp

theorem dGet_mkReport_fact (c t w i : Nat) :
    dGet (mkReport c t w i) ("IGNORED_FACT".toList) = i := by
  simp only [mkReport, dGet]
  rw [if_neg (by decide), if_neg (by decide), if_neg (by decide)]
  simp

/-- C1: for every violation report mapping the four categories to non-negative
integer counts, compute_nsi returns exactly the floored weighted formula; the
all-zero report yields 100, and the two-entry report with two world-rule
violations and one ignored fact yields 65. -/
theorem compute_nsi_formula :
    (∀ c t w i : Nat,
      compute_nsi (mkReport c t w i)
        = max (100 - 10 * (c : Int) - 10 * (t : Int) - 15 * (w : Int) - 5 * (i : Int)) 0)
    ∧ compute_nsi (mkReport 0 0 0 0) = 100
    ∧ compute_nsi [("WORLD_RULE_VIOLATION".toList, 2), ("IGNORED_FACT".toList, 1)] = 65 := by
  refine ⟨fun c t w i => ?_, by decide, by decide⟩
  rw [compute_nsi, dGet_mkReport_char, dGet_mkReport_time, dGet_mkReport_world,
    dGet_mkReport_fact]

/-! ### Structural lemmas about leftmost substring search -/

theorem isPrefixOf_eq_iff (l1 l2 : List Char) : l1.isPrefixOf l2 = true ↔ l1 <+: l2 :=
  List.isPrefixOf_iff_prefix

theorem splitFirst_eq (pat : List Char) :
    ∀ s pre post, splitFirst pat s = some (pre, post) → s = pre ++ pat ++ post := by
  intro s
  induction s with
  | nil =>
    intro pre post h
    cases pat with
    | nil =>
      simp only [splitFirst, List.isEmpty_nil, if_true] at h
      obtain ⟨h1, h2⟩ := Prod.mk.injEq .. ▸ Option.some.inj h
      simp [← h1, ← h2]
    | cons p ps => simp [splitFirst] at h
  | cons c rest ih =>
    intro pre post h
    by_cases hp : pat.isPrefixOf (c :: rest) = true
    · simp only [splitFirst, hp, if_true] at h
      obtain ⟨h1, h2⟩ := Prod.mk.injEq .. ▸ Option.some.inj h
      obtain ⟨t, ht⟩ := isPrefixOf_eq_iff _ _ |>.mp hp
      rw [← h1, ← h2, ← ht, List.nil_append, List.drop_left]
    · have hp2 : pat.isPrefixOf (c :: rest) = false := by
        cases hb : pat.isPrefixOf (c :: rest)
        · rfl
        · exact absurd hb hp
      simp only [splitFirst, hp2, Bool.false_eq_true, if_false] at h
      cases hsf : splitFirst pat rest with
      | none => rw [hsf] at h; simp at h
      | some pr =>
        obtain ⟨p1, p2⟩ := pr
        rw [hsf] at h
        simp only [Option.map_some', Option.some.injEq, Prod.mk.injEq] at h
        obtain ⟨h1, h2⟩ := h
        have := ih p1 p2 hsf
        rw [← h1, ← h2, this]
        rfl

theorem splitFirst_pos (pat s : List Char) (hne : pat ≠ [])
    (hp : pat.isPrefixOf s = true) :
    splitFirst pat s = some ([], s.drop pat.length) := by
  cases s with
  | nil =>
    exact absurd (List.prefix_nil.mp (isPrefixOf_eq_iff _ _ |>.mp hp)) hne
  | cons c rest => simp only [splitFirst, hp, if_true]

theorem splitFirst_neg (pat : List Char) (c : Char) (rest : List Char)
    (hp : pat.isPrefixOf (c :: rest) = false) :
    splitFirst pat (c :: rest) = (splitFirst pat rest).map (fun pr => (c :: pr.1, pr.2)) := by
  simp only [splitFirst, hp, Bool.false_eq_true, if_false]

/-- A pattern has no self-overlap when none of its proper nonempty suffixes is
also one of its prefixes; both delimiter tags below satisfy this. -/
def NoOverlap (pat : List Char) : Prop :=
  ∀ j, 0 < j → j < pat.length → pat.drop j ≠ pat.take (pat.length - j)

theorem noOverlap_openTag : NoOverlap openTag := by
  intro j h1 h2
  have hl : openTag.length = 6 := rfl
  rw [hl]
  rw [hl] at h2
  interval_cases j <;> decide

theorem noOverlap_closeTag : NoOverlap closeTag := by
  intro j h1 h2
  have hl : closeTag.length = 7 := rfl
  rw [hl]
  rw [hl] at h2
  interval_cases j <;> decide

theorem splitFirst_append_pat (pat : List Char) (hne : pat ≠ []) (hov : NoOverlap pat) :
    ∀ A C, splitFirst pat A = none → splitFirst pat (A ++ pat ++ C) = some (A, C) := by
  intro A
  induction A with
  | nil =>
    intro C _
    have hp : pat.isPrefixOf (pat ++ C) = true :=
      isPrefixOf_eq_iff _ _ |>.mpr (List.prefix_append pat C)
    rw [List.nil_append, splitFirst_pos pat (pat ++ C) hne hp, List.drop_left]
  | cons c A ih =>
    intro C hA
    have hsplit : pat.isPrefixOf (c :: A) = false ∧ splitFirst pat A = none := by
      by_cases hp : pat.isPrefixOf (c :: A) = true
      · rw [splitFirst_pos pat _ hne hp] at hA
        simp at hA
      · have hp2 : pat.isPrefixOf (c :: A) = false := by
          cases hb : pat.isPrefixOf (c :: A)
          · rfl
          · exact absurd hb hp
        rw [splitFirst_neg pat c A hp2] at hA
        cases hsf : splitFirst pat A with
        | none => exact ⟨hp2, rfl⟩
        | some pr => rw [hsf] at hA; simp at hA
    obtain ⟨hp2, hrec⟩ := hsplit
    have hp3 : pat.isPrefixOf (c :: (A ++ pat ++ C)) = false := by
      by_contra hcon
      have hp4 : pat.isPrefixOf (c :: (A ++ pat ++ C)) = true := by
        cases hb : pat.isPrefixOf (c :: (A ++ pat ++ C))
        · exact absurd hb hcon
        · rfl
      obtain ⟨t, ht⟩ := isPrefixOf_eq_iff _ _ |>.mp hp4
      have hLC : c :: (A ++ pat ++ C) = (c :: A) ++ (pat ++ C) := by
        simp [List.append_assoc]
      have hpat : pat = ((c :: A) ++ (pat ++ C)).take pat.length := by
        rw [← hLC, ← ht, List.take_left]
      rcases Nat.lt_or_ge (c :: A).length pat.length with hmn | hnm
      · have h1 : ((c :: A) ++ (pat ++ C)).take pat.length
            = (c :: A) ++ (pat ++ C).take (pat.length - (c :: A).length) := by
          rw [List.take_append_eq_append_take, List.take_of_length_le (le_of_lt hmn)]
        have h2 : (pat ++ C).take (pat.length - (c :: A).length)
            = pat.take (pat.length - (c :: A).length) := by
          rw [List.take_append_eq_append_take]
          have hz : pat.length - (c :: A).length - pat.length = 0 := by omega
          rw [hz]
          simp
        have h3 : pat = (c :: A) ++ pat.take (pat.length - (c :: A).length) := by
          conv_lhs => rw [hpat]
          rw [h1, h2]
        have h4 : pat.drop (c :: A).length = pat.take (pat.length - (c :: A).length) := by
          conv_lhs => rw [h3]
          rw [List.drop_left]
        exact hov (c :: A).length (by simp) hmn h4
      · have h1 : ((c :: A) ++ (pat ++ C)).take pat.length = (c :: A).take pat.length := by
          rw [List.take_append_eq_append_take]
          have hz : pat.length - (c :: A).length = 0 := by omega
          rw [hz]
          simp
        have h2 : pat <+: (c :: A) := by
          conv_lhs => rw [hpat]
          rw [h1]
          exact List.take_prefix pat.length (c :: A)
        have h3 : pat.isPrefixOf (c :: A) = true := isPrefixOf_eq_iff _ _ |>.mpr h2
        rw [h3] at hp2
        exact absurd hp2 (by simp)
    have hassoc : (c :: A) ++ pat ++ C = c :: (A ++ pat ++ C) := by
      simp [List.append_assoc]
    rw [hassoc, splitFirst_neg pat c (A ++ pat ++ C) hp3, ih C hrec]
    rfl

theorem splitFirst_isSome_of_starts (pat s : List Char) (hp : pat.isPrefixOf s = true) :
    (splitFirst pat s).isSome = true := by
  cases s with
  | nil =>
    have hpe : pat = [] := List.prefix_nil.mp (isPrefixOf_eq_iff _ _ |>.mp hp)
    subst hpe
    simp [splitFirst]
  | cons c rest => simp [splitFirst, hp]

theorem occursIn_iff (pat s : List Char) :
    occursIn pat s = true ↔ ∃ pre post, s = pre ++ pat ++ post := by
  constructor
  · intro h
    rw [occursIn] at h
    cases hsf : splitFirst pat s with
    | none => rw [hsf] at h; simp at h
    | some pr => exact ⟨pr.1, pr.2, splitFirst_eq pat s pr.1 pr.2 (by rw [hsf])⟩
  · rintro ⟨pre, post, rfl⟩
    rw [occursIn]
    induction pre with
    | nil =>
      rw [List.nil_append]
      exact splitFirst_isSome_of_starts pat (pat ++ post)
        (isPrefixOf_eq_iff _ _ |>.mpr (List.prefix_append pat post))
    | cons c pre ih =>
      by_cases hp : pat.isPrefixOf ((c :: pre) ++ pat ++ post) = true
      · exact splitFirst_isSome_of_starts pat _ hp
      · have hp2 : pat.isPrefixOf (c :: (pre ++ pat ++ post)) = false := by
          cases hb : pat.isPrefixOf (c :: (pre ++ pat ++ post))
          · rfl
          · exact absurd (by simpa [List.append_assoc] using hb) hp
        have hassoc : (c :: pre) ++ pat ++ post = c :: (pre ++ pat ++ post) := by
          simp [List.append_assoc]
        rw [hassoc, splitFirst_neg pat _ _ hp2, Option.isSome_map']
        exact ih

theorem occursIn_of_infix (pat L M R : List Char) (h : occursIn pat M = true) :
    occursIn pat (L ++ M ++ R) = true := by
  obtain ⟨pre, post, rfl⟩ := (occursIn_iff pat M).mp h
  exact (occursIn_iff pat _).mpr ⟨L ++ pre, post ++ R, by simp [List.append_assoc]⟩

theorem pyStrip_infix (s : List Char) : ∃ L R, s = L ++ pyStrip s ++ R := by
  refine ⟨s.takeWhile isSpaceChar,
    (((s.dropWhile isSpaceChar).reverse.takeWhile isSpaceChar)).reverse, ?_⟩
  conv_lhs => rw [← List.takeWhile_append_dropWhile isSpaceChar s]
  rw [List.append_assoc]
  congr 1
  rw [pyStrip]
  conv_lhs =>
    rw [← List.reverse_reverse (s.dropWhile isSpaceChar),
      ← List.takeWhile_append_dropWhile isSpaceChar (s.dropWhile isSpaceChar).reverse,
      List.reverse_append]

theorem occursIn_pyStrip (pat s : List Char) (h : occursIn pat (pyStrip s) = true) :
    occursIn pat s = true := by
  obtain ⟨L, R, hLR⟩ := pyStrip_infix s
  rw [hLR]
  exact occursIn_of_infix pat L (pyStrip s) R h

/-! ### Unfolding equation for the global substitution -/

theorem stripWrldGo_congr :
    ∀ f t, t.length ≤ f → stripWrldGo f t = stripWrldGo t.length t := by
  intro f
  induction f using Nat.strong_induction_on with
  | _ f ih =>
    intro t ht
    match f, ht with
    | 0, ht =>
      have : t = [] := List.length_eq_zero.mp (Nat.le_zero.mp ht)
      subst this
      rfl
    | g + 1, ht =>
      cases hso : splitFirst openTag t with
      | none =>
        cases hlt : t.length with
        | zero => simp [stripWrldGo, hso]
        | succ k => simp [stripWrldGo, hso]
      | some pr =>
        obtain ⟨pre, rest⟩ := pr
        cases hsc : splitFirst closeTag rest with
        | none =>
          cases hlt : t.length with
          | zero =>
            have ht0 : t = [] := List.length_eq_zero.mp hlt
            have hnone : splitFirst openTag ([] : List Char) = none := by decide
            rw [ht0, hnone] at hso
            exact Option.noConfusion hso
          | succ k => simp [stripWrldGo, hso, hsc]
        | some pr2 =>
          obtain ⟨blk, post⟩ := pr2
          have e1 := splitFirst_eq openTag t pre rest hso
          have e2 := splitFirst_eq closeTag rest blk post hsc
          have h6 : openTag.length = 6 := rfl
          have h7 : closeTag.length = 7 := rfl
          have hlen : post.length + 13 ≤ t.length := by
            rw [e1, e2]
            simp [List.length_append]
            omega
          cases hlt : t.length with
          | zero => omega
          | succ k =>
            have hgoal1 : stripWrldGo (g + 1) t = pre ++ stripWrldGo g post := by
              simp [stripWrldGo, hso, hsc]
            have hgoal2 : stripWrldGo (k + 1) t = pre ++ stripWrldGo k post := by
              simp [stripWrldGo, hso, hsc]
            rw [hgoal1, hgoal2,
              ih g (by omega) post (by omega), ih k (by omega) post (by omega)]

theorem stripWrld_eq (s : List Char) :
    stripWrld s =
      match splitFirst openTag s with
      | none => s
      | some (pre, rest) =>
        match splitFirst closeTag rest with
        | none => s
        | some (_, post) => pre ++ stripWrld post := by
  rw [stripWrld]
  cases hso : splitFirst openTag s with
  | none =>
    cases hl : s.length with
    | zero => simp [stripWrldGo, hso]
    | succ k => simp [stripWrldGo, hso]
  | some pr =>
    obtain ⟨pre, rest⟩ := pr
    cases hsc : splitFirst closeTag rest with
    | none =>
      cases hl : s.length with
      | zero =>
        have hs0 : s = [] := List.length_eq_zero.mp hl
        have hnone : splitFirst openTag ([] : List Char) = none := by decide
        rw [hs0, hnone] at hso
        exact Option.noConfusion hso
      | succ k => simp [stripWrldGo, hso, hsc]
    | some pr2 =>
      obtain ⟨blk, post⟩ := pr2
      have e1 := splitFirst_eq openTag s pre rest hso
      have e2 := splitFirst_eq closeTag rest blk post hsc
      have h6 : openTag.length = 6 := rfl
      have h7 : closeTag.length = 7 := rfl
      have hlen : post.length + 13 ≤ s.length := by
        rw [e1, e2]
        simp [List.length_append]
        omega
      cases hl : s.length with
      | zero => omega
      | succ k =>
        simp only [stripWrldGo, hso, hsc]
        rw [stripWrld, stripWrldGo_congr k post (by omega)]

theorem stripWrld_of_no_block (s : List Char) (h : extractWrldBlock s = none) :
    stripWrld s = s := by
  rw [stripWrld_eq]
  cases hso : splitFirst openTag s with
  | none => simp [hso]
  | some pr =>
    obtain ⟨pre, rest⟩ := pr
    cases hsc : splitFirst closeTag rest with
    | none => simp [hso, hsc]
    | some pr2 =>
      obtain ⟨blk, post⟩ := pr2
      simp only [extractWrldBlock, hso, hsc] at h
      exact Option.noConfusion h

theorem splitFirst_none_of_not_occurs (pat s : List Char) (h : occursIn pat s = false) :
    splitFirst pat s = none := by
  cases hsf : splitFirst pat s with
  | none => rfl
  | some pr =>
    rw [occursIn, hsf] at h
    simp at h

theorem occursIn_false_left (pat X Y : List Char) (h : occursIn pat (X ++ Y) = false) :
    occursIn pat X = false := by
  cases hb : occursIn pat X with
  | false => rfl
  | true =>
    have h2 := occursIn_of_infix pat [] X Y hb
    rw [List.nil_append] at h2
    rw [h2] at h
    exact absurd h (by simp)

theorem occursIn_false_right (pat X Y : List Char) (h : occursIn pat (X ++ Y) = false) :
    occursIn pat Y = false := by
  cases hb : occursIn pat Y with
  | false => rfl
  | true =>
    have h2 := occursIn_of_infix pat X Y [] hb
    rw [List.append_nil] at h2
    rw [h2] at h
    exact absurd h (by simp)

theorem extractWrldBlock_block (T B R : List Char)
    (hT : splitFirst openTag T = none) (hB : splitFirst closeTag B = none) :
    extractWrldBlock (T ++ openTag ++ B ++ closeTag ++ R) = some B := by
  have hassoc : T ++ openTag ++ B ++ closeTag ++ R
      = T ++ openTag ++ ((B ++ closeTag) ++ R) := by
    simp [List.append_assoc]
  have h1 : splitFirst openTag (T ++ openTag ++ ((B ++ closeTag) ++ R))
      = some (T, (B ++ closeTag) ++ R) :=
    splitFirst_append_pat openTag (by decide) noOverlap_openTag T ((B ++ closeTag) ++ R) hT
  have h2 : splitFirst closeTag ((B ++ closeTag) ++ R) = some (B, R) :=
    splitFirst_append_pat closeTag (by decide) noOverlap_closeTag B R hB
  rw [hassoc]
  simp only [extractWrldBlock, h1, h2]

theorem stripWrld_block (T B R : List Char)
    (hT : splitFirst openTag T = none) (hB : splitFirst closeTag B = none) :
    stripWrld (T ++ openTag ++ B ++ closeTag ++ R) = T ++ stripWrld R := by
  have hassoc : T ++ openTag ++ B ++ closeTag ++ R
      = T ++ openTag ++ ((B ++ closeTag) ++ R) := by
    simp [List.append_assoc]
  have h1 : splitFirst openTag (T ++ openTag ++ ((B ++ closeTag) ++ R))
      = some (T, (B ++ closeTag) ++ R) :=
    splitFirst_append_pat openTag (by decide) noOverlap_openTag T ((B ++ closeTag) ++ R) hT
  have h2 : splitFirst closeTag ((B ++ closeTag) ++ R) = some (B, R) :=
    splitFirst_append_pat closeTag (by decide) noOverlap_closeTag B R hB
  rw [hassoc, stripWrld_eq]
  simp only [h1, h2]

/-! ### Extraction of the UPDATED_RULES field -/

def rulesKey : List Char := "UPDATED_RULES".toList

def vcKey : List Char := "VIOLATION_COUNTS".toList

/-- The lookahead of the UPDATED_RULES pattern (llm_client.py line 268): the
position starts the text VIOLATION_COUNTS, optional whitespace, and a colon. -/
def lookVCColon (s : List Char) : Bool :=
  vcKey.isPrefixOf s &&
    (match (s.drop vcKey.length).dropWhile isSpaceChar with
     | ':' :: _ => true
     | _ => false)

/-- Lazy capture: the shortest text before a position where the lookahead
matches, scanning left to right; none when no such position exists. -/
def scanForVC : List Char → Option (List Char)
  | [] => if lookVCColon [] then some [] else none
  | c :: rest =>
    if lookVCColon (c :: rest) then some []
    else (scanForVC rest).map (fun cap => c :: cap)

/-- One anchored attempt of the UPDATED_RULES pattern at the start of s. -/
def matchRulesAt (s : List Char) : Option (List Char) :=
  if rulesKey.isPrefixOf s then
    match (s.drop rulesKey.length).dropWhile isSpaceChar with
    | ':' :: r2 => scanForVC (r2.dropWhile isSpaceChar)
    | _ => none
  else none

/-- re.search of the UPDATED_RULES pattern inside the metadata block
(llm_client.py line 268): leftmost position where the whole pattern, lookahead
included, matches. -/
def searchRules : List Char → Option (List Char)
  | [] => matchRulesAt []
  | c :: rest =>
    match matchRulesAt (c :: rest) with
    | some cap => some cap
    | none => searchRules rest

/-- extract_updated_rules (llm_client.py lines 258 to 269): capture the
UPDATED_RULES field of the first metadata block, stripped; empty string when
the block or the field is missing or unparsable. -/
def extract_updated_rules (raw : List Char) : List Char :=
  match extractWrldBlock raw with
  | none => []
  | some block =>
    match searchRules block with
    | some cap => pyStrip cap
    | none => []

theorem extractWrldBlock_none_of_no_open (s : List Char)
    (h : splitFirst openTag s = none) : extractWrldBlock s = none := by
  simp only [extractWrldBlock, h]

theorem dGet_map_countOf (ks : List (List Char)) (block k : List Char)
    (h : searchKeyNum k block = none) :
    dGet (ks.map (fun key => (key, countOf key block))) k = 0 := by
  induction ks with
  | nil => rfl
  | cons a ks ih =>
    simp only [List.map, dGet]
    by_cases hk : k = a
    · rw [if_pos hk, ← hk]
      simp [countOf, h]
    · rw [if_neg hk]
      exact ih

/-- C2: for every raw output, the parsed violation report binds exactly the
four known categories, each to a non-negative count; a raw output with no
metadata block parses to the all-zero report, and a category whose line is
missing or malformed inside the block (the digit search fails) is bound to 0.
Unknown category names never enter the report, whose key list is fixed. -/
theorem parse_violations_closed (raw : List Char) :
    (parse_wrld_violations raw).map Prod.fst = categoryKeys
    ∧ (∀ p, p ∈ parse_wrld_violations raw → 0 ≤ (p.2 : Int))
    ∧ (extractWrldBlock raw = none →
        parse_wrld_violations raw = categoryKeys.map (fun k => (k, 0)))
    ∧ (∀ k block, extractWrldBlock raw = some block → searchKeyNum k block = none →
        dGet (parse_wrld_violations raw) k = 0) := by
  refine ⟨?_, ?_, ?_, ?_⟩
  · cases hb : extractWrldBlock raw <;>
      simp [parse_wrld_violations, hb, categoryKeys]
  · intro p _
    exact Int.natCast_nonneg p.2
  · intro hb
    simp [parse_wrld_violations, hb]
  · intro k block hb hsk
    simp only [parse_wrld_violations, hb]
    exact dGet_map_countOf categoryKeys block k hsk

theorem parse_violations_closed_witness :
    dGet (parse_wrld_violations
        ("s<WRLD>CHARACTER_INCONSISTENCY: -1 IGNORED_FACT: 2</WRLD>".toList))
      ("CHARACTER_INCONSISTENCY".toList) = 0
    ∧ (parse_wrld_violations
        ("s<WRLD>CHARACTER_INCONSISTENCY: -1 IGNORED_FACT: 2</WRLD>".toList)).map Prod.fst
      = categoryKeys := by
  constructor
  · exact (parse_violations_closed
      ("s<WRLD>CHARACTER_INCONSISTENCY: -1 IGNORED_FACT: 2</WRLD>".toList)).2.2.2
      ("CHARACTER_INCONSISTENCY".toList)
      ("CHARACTER_INCONSISTENCY: -1 IGNORED_FACT: 2".toList)
      (by decide) (by decide)
  · exact (parse_violations_closed
      ("s<WRLD>CHARACTER_INCONSISTENCY: -1 IGNORED_FACT: 2</WRLD>".toList)).1

/-- C3 amended: with no metadata block the visible text equals the raw output
(which generate_story has already stripped) and the rule update is empty; with
one well-separated block the visible text is the surrounding text stripped,
contains no opening delimiter, and contains the block contents only if they
already occurred in the surrounding text.  The original unrestricted claim is
refuted by metadata_stripping_cex. -/
theorem metadata_stripping :
    (∀ raw, pyStrip raw = raw → extractWrldBlock raw = none →
        clean_output raw = raw ∧ extract_updated_rules raw = [])
    ∧ (∀ raw T B S, raw = T ++ openTag ++ B ++ closeTag ++ S →
        occursIn openTag (T ++ S) = false → occursIn closeTag B = false →
        clean_output raw = pyStrip (T ++ S)
        ∧ occursIn openTag (clean_output raw) = false
        ∧ (occursIn B (T ++ S) = false → occursIn B (clean_output raw) = false)) := by
  constructor
  · intro raw hstrip hnone
    refine ⟨?_, ?_⟩
    · rw [clean_output, stripWrld_of_no_block raw hnone, hstrip]
    · simp only [extract_updated_rules, hnone]
  · rintro raw T B S rfl hTS hB
    have hT : splitFirst openTag T = none :=
      splitFirst_none_of_not_occurs _ _ (occursIn_false_left _ _ _ hTS)
    have hS : splitFirst openTag S = none :=
      splitFirst_none_of_not_occurs _ _ (occursIn_false_right _ _ _ hTS)
    have hBc : splitFirst closeTag B = none := splitFirst_none_of_not_occurs _ _ hB
    have hstrip : stripWrld (T ++ openTag ++ B ++ closeTag ++ S) = T ++ S := by
      rw [stripWrld_block T B S hT hBc,
        stripWrld_of_no_block S (extractWrldBlock_none_of_no_open S hS)]
    have hclean : clean_output (T ++ openTag ++ B ++ closeTag ++ S) = pyStrip (T ++ S) := by
      rw [clean_output, hstrip]
    refine ⟨hclean, ?_, ?_⟩
    · rw [hclean]
      cases hb : occursIn openTag (pyStrip (T ++ S)) with
      | false => rfl
      | true =>
        have h2 := occursIn_pyStrip openTag (T ++ S) hb
        rw [h2] at hTS
        exact absurd hTS (by simp)
    · intro hBout
      rw [hclean]
      cases hb : occursIn B (pyStrip (T ++ S)) with
      | false => rfl
      | true =>
        have h2 := occursIn_pyStrip B (T ++ S) hb
        rw [h2] at hBout
        exact absurd hBout (by simp)

theorem metadata_stripping_cex :
    extractWrldBlock ("<WRLD<WRLD>x</WRLD>>".toList) = some ("x".toList)
    ∧ clean_output ("<WRLD<WRLD>x</WRLD>>".toList) = "<WRLD>".toList
    ∧ occursIn ("<WRLD>".toList) (clean_output ("<WRLD<WRLD>x</WRLD>>".toList)) = true := by
  refine ⟨by decide, by decide, by decide⟩

theorem metadata_stripping_witness :
    clean_output ("hello".toList) = "hello".toList
    ∧ clean_output ("tale ".toList ++ openTag ++ "RULES".toList ++ closeTag ++ " end".toList)
      = pyStrip ("tale ".toList ++ " end".toList) := by
  constructor
  · exact (metadata_stripping.1 ("hello".toList) (by decide) (by decide)).1
  · exact (metadata_stripping.2 _ ("tale ".toList) ("RULES".toList) (" end".toList)
      rfl (by decide) (by decide)).1

/-- C9: when the raw output carries two metadata blocks, the violation counts
and the rule delta are taken exclusively from the first block, while the
substitution used for the visible text removes both blocks, so the parsed
report can differ from the contents stripped out of the displayed text. -/
theorem multi_block_first_wins (raw T B1 M B2 S : List Char)
    (hraw : raw = T ++ openTag ++ B1 ++ closeTag ++ M ++ openTag ++ B2 ++ closeTag ++ S)
    (hT : occursIn openTag T = false) (hB1 : occursIn closeTag B1 = false)
    (hM : occursIn openTag M = false) (hB2 : occursIn closeTag B2 = false)
    (hS : occursIn openTag S = false) :
    extractWrldBlock raw = some B1
    ∧ parse_wrld_violations raw = categoryKeys.map (fun k => (k, countOf k B1))
    ∧ extract_updated_rules raw
        = (match searchRules B1 with | some cap => pyStrip cap | none => [])
    ∧ stripWrld raw = T ++ M ++ S := by
  subst hraw
  have hTn : splitFirst openTag T = none := splitFirst_none_of_not_occurs _ _ hT
  have hB1n : splitFirst closeTag B1 = none := splitFirst_none_of_not_occurs _ _ hB1
  have hMn : splitFirst openTag M = none := splitFirst_none_of_not_occurs _ _ hM
  have hB2n : splitFirst closeTag B2 = none := splitFirst_none_of_not_occurs _ _ hB2
  have hSn : splitFirst openTag S = none := splitFirst_none_of_not_occurs _ _ hS
  have hgroup : T ++ openTag ++ B1 ++ closeTag ++ M ++ openTag ++ B2 ++ closeTag ++ S
      = T ++ openTag ++ B1 ++ closeTag ++ (M ++ openTag ++ B2 ++ closeTag ++ S) := by
    simp [List.append_assoc]
  have hext : extractWrldBlock
      (T ++ openTag ++ B1 ++ closeTag ++ M ++ openTag ++ B2 ++ closeTag ++ S) = some B1 := by
    rw [hgroup]
    exact extractWrldBlock_block T B1 (M ++ openTag ++ B2 ++ closeTag ++ S) hTn hB1n
  refine ⟨hext, ?_, ?_, ?_⟩
  · simp only [parse_wrld_violations, hext]
  · simp only [extract_updated_rules, hext]
  · rw [hgroup, stripWrld_block T B1 (M ++ openTag ++ B2 ++ closeTag ++ S) hTn hB1n,
      stripWrld_block M B2 S hMn hB2n,
      stripWrld_of_no_block S (extractWrldBlock_none_of_no_open S hSn)]
    simp [List.append_assoc]

theorem multi_block_first_wins_witness :
    extractWrldBlock ("a".toList ++ openTag ++ "IGNORED_FACT: 1".toList ++ closeTag
        ++ "b".toList ++ openTag ++ "IGNORED_FACT: 7".toList ++ closeTag ++ "c".toList)
      = some ("IGNORED_FACT: 1".toList)
    ∧ stripWrld ("a".toList ++ openTag ++ "IGNORED_FACT: 1".toList ++ closeTag
        ++ "b".toList ++ openTag ++ "IGNORED_FACT: 7".toList ++ closeTag ++ "c".toList)
      = "a".toList ++ "b".toList ++ "c".toList
    ∧ dGet (parse_wrld_violations ("a".toList ++ openTag ++ "IGNORED_FACT: 1".toList
        ++ closeTag ++ "b".toList ++ openTag ++ "IGNORED_FACT: 7".toList ++ closeTag
        ++ "c".toList)) ("IGNORED_FACT".toList) = 1 := by
  have h := multi_block_first_wins
    ("a".toList ++ openTag ++ "IGNORED_FACT: 1".toList ++ closeTag ++ "b".toList
      ++ openTag ++ "IGNORED_FACT: 7".toList ++ closeTag ++ "c".toList)
    ("a".toList) ("IGNORED_FACT: 1".toList) ("b".toList) ("IGNORED_FACT: 7".toList)
    ("c".toList) rfl (by decide) (by decide) (by decide) (by decide) (by decide)
  refine ⟨h.1, h.2.2.2, ?_⟩
  rw [h.2.1]
  decide

/-! ### World-rule persistence (story_routes.py lines 569 to 571 and 780 to 782) -/

/-- Modelled from the spec: crud.update_world_rules is absent from src although
story_routes.py calls it; per sections 4.4 and 6 of the design, the storage
collaborator replaces the per-story World Rule Set text with the given value. -/
def update_world_rules (_current : Option (List Char)) (new_rules : List Char) :
    Option (List Char) :=
  some new_rules

/-- The world-rule persistence step shared by generate_story_message and
continue_story: the parsed delta replaces the stored rule set only when it is
truthy, that is, non-empty; otherwise no storage call is made. -/
def worldRulesAfterTurn (current : Option (List Char)) (updated_rules : List Char) :
    Option (List Char) :=
  if updated_rules.isEmpty then current else update_world_rules current updated_rules

/-- C4: a turn whose parsed rule delta is the empty string, including every
turn whose raw output has no metadata block or no parsable UPDATED_RULES
field, leaves the stored World Rule Set unchanged; the stored rule set is
replaced exactly when the parsed delta is non-empty. -/
theorem world_rules_preserved_on_empty_delta (current : Option (List Char)) :
    (∀ delta, delta = [] → worldRulesAfterTurn current delta = current)
    ∧ (∀ delta, delta ≠ [] → worldRulesAfterTurn current delta = some delta)
    ∧ (∀ raw, extractWrldBlock raw = none →
        worldRulesAfterTurn current (extract_updated_rules raw) = current)
    ∧ (∀ raw block, extractWrldBlock raw = some block → searchRules block = none →
        worldRulesAfterTurn current (extract_updated_rules raw) = current) := by
  refine ⟨?_, ?_, ?_, ?_⟩
  · rintro delta rfl
    rfl
  · intro delta h
    simp [worldRulesAfterTurn, update_world_rules, List.isEmpty_iff, h]
  · intro raw hb
    have he : extract_updated_rules raw = [] := by
      simp only [extract_updated_rules, hb]
    rw [he]
    rfl
  · intro raw block hb hsr
    have he : extract_updated_rules raw = [] := by
      simp only [extract_updated_rules, hb, hsr]
    rw [he]
    rfl

theorem world_rules_preserved_witness :
    worldRulesAfterTurn (some ("dragons cannot fly".toList)) []
      = some ("dragons cannot fly".toList)
    ∧ worldRulesAfterTurn (some ("old canon".toList)) ("new canon".toList)
      = some ("new canon".toList) := by
  exact ⟨(world_rules_preserved_on_empty_delta (some ("dragons cannot fly".toList))).1 [] rfl,
    (world_rules_preserved_on_empty_delta (some ("old canon".toList))).2.1
      ("new canon".toList) (by decide)⟩

/-! ### Hint extraction (hints.py lines 14 to 51) -/

/-- Worker for Python str.split: accumulate the current word reversed, emitting
it whenever whitespace is met; leading, trailing and repeated separators
produce no empty words. -/
def pySplitGo : List Char → List Char → List (List Char)
  | [], acc => if acc.isEmpty then [] else [acc.reverse]
  | c :: rest, acc =>
    if isSpaceChar c then
      if acc.isEmpty then pySplitGo rest [] else acc.reverse :: pySplitGo rest []
    else pySplitGo rest (c :: acc)

/-- Python str.split with no argument: the whitespace-delimited tokens. -/
def pySplit (s : List Char) : List (List Char) :=
  pySplitGo s []

/-- Python single-space str.flatten over a word list. -/
def joinWords : List (List Char) → List Char
  | [] => []
  | [w] => w
  | w :: ws => w ++ ' ' :: joinWords ws

/-- Python negative-offset slice text from minus n: the last n characters. -/
def lastChars (n : Nat) (s : List Char) : List Char :=
  s.drop (s.length - n)

/-- extract_short_hint (hints.py lines 14 to 51): the generation service is an
external producer receiving only the last 2000 characters of the story text;
any failure is caught and yields the empty hint, and a successful reply is
stripped, split, truncated to its first 10 tokens and rejoined. -/
def extract_short_hint (producer : List Char → Option (List Char))
    (story_text : List Char) : List Char :=
  match producer (lastChars 2000 story_text) with
  | none => []
  | some content => joinWords ((pySplit (pyStrip content)).take 10)

theorem pySplitGo_tokens :
    ∀ s acc, (∀ c, c ∈ acc → isSpaceChar c = false) →
      ∀ w, w ∈ pySplitGo s acc → w ≠ [] ∧ ∀ c, c ∈ w → isSpaceChar c = false := by
  intro s
  induction s with
  | nil =>
    intro acc hacc w hw
    simp only [pySplitGo] at hw
    cases he : acc.isEmpty with
    | true => rw [he, if_pos rfl] at hw; simp at hw
    | false =>
      rw [he] at hw
      simp only [Bool.false_eq_true, if_false, List.mem_singleton] at hw
      subst hw
      refine ⟨?_, ?_⟩
      · intro hrev
        have : acc = [] := by simpa using congrArg List.reverse hrev
        rw [this] at he
        simp at he
      · intro c hc
        exact hacc c (List.mem_reverse.mp hc)
  | cons c rest ih =>
    intro acc hacc w hw
    simp only [pySplitGo] at hw
    cases hs : isSpaceChar c with
    | true =>
      rw [hs, if_pos rfl] at hw
      cases he : acc.isEmpty with
      | true =>
        rw [he, if_pos rfl] at hw
        exact ih [] (by simp) w hw
      | false =>
        rw [he] at hw
        simp only [Bool.false_eq_true, if_false, List.mem_cons] at hw
        rcases hw with h | h
        · subst h
          refine ⟨?_, ?_⟩
          · intro hrev
            have : acc = [] := by simpa using congrArg List.reverse hrev
            rw [this] at he
            simp at he
          · intro d hd
            exact hacc d (List.mem_reverse.mp hd)
        · exact ih [] (by simp) w h
    | false =>
      rw [hs] at hw
      simp only [Bool.false_eq_true, if_false] at hw
      refine ih (c :: acc) ?_ w hw
      intro d hd
      rcases List.mem_cons.mp hd with h | h
      · rw [h]
        exact hs
      · exact hacc d h

theorem pySplitGo_append_nonspace :
    ∀ w t acc, (∀ c, c ∈ w → isSpaceChar c = false) →
      pySplitGo (w ++ t) acc = pySplitGo t (w.reverse ++ acc) := by
  intro w
  induction w with
  | nil => intro t acc _; simp
  | cons c w ih =>
    intro t acc hw
    have hc : isSpaceChar c = false := hw c (by simp)
    simp only [List.cons_append, pySplitGo, hc, Bool.false_eq_true, if_false]
    show pySplitGo (w ++ t) (c :: acc) = pySplitGo t ((c :: w).reverse ++ acc)
    rw [ih t (c :: acc) (fun d hd => hw d (by simp [hd]))]
    simp [List.append_assoc]

theorem pySplit_joinWords (ws : List (List Char))
    (h : ∀ w, w ∈ ws → w ≠ [] ∧ ∀ c, c ∈ w → isSpaceChar c = false) :
    pySplit (joinWords ws) = ws := by
  induction ws with
  | nil => rfl
  | cons w ws ih =>
    cases ws with
    | nil =>
      obtain ⟨hne, hns⟩ := h w (by simp)
      show pySplitGo (joinWords [w]) [] = [w]
      have hw : joinWords [w] = w := rfl
      rw [hw, show w = w ++ ([] : List Char) by simp,
        pySplitGo_append_nonspace w [] [] hns]
      simp only [pySplitGo, List.append_nil, List.append_assoc]
      have hne2 : w.reverse.isEmpty = false := by
        cases hre : w.reverse with
        | nil => exact absurd (by simpa using congrArg List.reverse hre) hne
        | cons a as => simp [hre]
      rw [hne2]
      simp
    | cons w2 ws2 =>
      obtain ⟨hne, hns⟩ := h w (by simp)
      show pySplitGo (joinWords (w :: w2 :: ws2)) [] = w :: w2 :: ws2
      have hj : joinWords (w :: w2 :: ws2) = w ++ ' ' :: joinWords (w2 :: ws2) := rfl
      rw [hj, pySplitGo_append_nonspace w (' ' :: joinWords (w2 :: ws2)) [] hns]
      simp only [pySplitGo]
      rw [if_pos (by decide)]
      have hne2 : (w.reverse ++ ([] : List Char)).isEmpty = false := by
        cases hre : w.reverse with
        | nil => exact absurd (by simpa using congrArg List.reverse hre) hne
        | cons a as => simp [hre]
      rw [hne2]
      simp only [Bool.false_eq_true, if_false]
      show (w.reverse ++ []).reverse :: pySplit (joinWords (w2 :: ws2)) = w :: w2 :: ws2
      rw [ih (fun v hv => h v (List.mem_cons_of_mem w hv))]
      simp

/-- C7: extract_short_hint is total and consults only the last 2000 characters
of its input; a producer failure yields the empty hint, a producer reply is
capped at its first 10 whitespace tokens, and the result always splits into at
most 10 tokens. -/
theorem extract_short_hint_contract (producer : List Char → Option (List Char))
    (text : List Char) :
    (producer (lastChars 2000 text) = none → extract_short_hint producer text = [])
    ∧ (∀ content, producer (lastChars 2000 text) = some content →
        extract_short_hint producer text
          = joinWords ((pySplit (pyStrip content)).take 10))
    ∧ (pySplit (extract_short_hint producer text)).length ≤ 10
    ∧ (∀ t2, lastChars 2000 text = lastChars 2000 t2 →
        extract_short_hint producer text = extract_short_hint producer t2) := by
  refine ⟨?_, ?_, ?_, ?_⟩
  · intro h
    simp [extract_short_hint, h]
  · intro content h
    simp [extract_short_hint, h]
  · cases hp : producer (lastChars 2000 text) with
    | none => simp [extract_short_hint, hp, pySplit, pySplitGo]
    | some content =>
      simp only [extract_short_hint, hp]
      have hmem : ∀ w, w ∈ (pySplit (pyStrip content)).take 10 →
          w ≠ [] ∧ ∀ c, c ∈ w → isSpaceChar c = false := by
        intro w hw
        exact pySplitGo_tokens (pyStrip content) [] (by simp) w
          (List.take_subset 10 (pySplit (pyStrip content)) hw)
      rw [pySplit_joinWords ((pySplit (pyStrip content)).take 10) hmem]
      calc ((pySplit (pyStrip content)).take 10).length
          = min 10 (pySplit (pyStrip content)).length := List.length_take 10 _
        _ ≤ 10 := min_le_left 10 _
  · intro t2 h
    simp [extract_short_hint, h]

theorem extract_short_hint_witness :
    extract_short_hint (fun _ => none) ("once upon a time".toList) = []
    ∧ extract_short_hint (fun _ => some ("a b c d e f g h i j k l".toList))
        ("story".toList)
      = "a b c d e f g h i j".toList := by
  constructor
  · exact (extract_short_hint_contract (fun _ => none) ("once upon a time".toList)).1 rfl
  · have h := (extract_short_hint_contract
      (fun _ => some ("a b c d e f g h i j k l".toList)) ("story".toList)).2.1
      ("a b c d e f g h i j k l".toList) rfl
    rw [h]
    decide

/-! ### Persisted messages (models.py class StoryMessage, with the
stability_score and summary columns added by init_db.py kept out of the claims
below; timestamps are abstract ticks) -/

structure StoryMessage where
  id : Nat
  story_id : Nat
  order_index : Nat
  user_prompt : List Char
  ai_response : List Char
  hint_context : Option (List Char)
  created_at : Nat
  updated_at : Nat

/-- Python truthiness of an optional string: false for None and for the empty
string. -/
def pyTruthy : Option (List Char) → Bool
  | none => false
  | some s => !s.isEmpty

/-- update_message (crud.py lines 158 to 174): always overwrite the AI
response, overwrite the hint only when the new hint is truthy, and refresh the
update timestamp. -/
def update_message (m : StoryMessage) (ai_response : List Char)
    (hint_context : Option (List Char)) (now : Nat) : StoryMessage :=
  { m with
    ai_response := ai_response
    hint_context := if pyTruthy hint_context then hint_context else m.hint_context
    updated_at := now }

/-- C10: updating a message with an empty or absent hint replaces the AI
response, keeps the stored hint equal to its value before the call, and leaves
every other content field unchanged; a non-empty hint replaces the stored
hint. -/
theorem update_message_preserves_hint (m : StoryMessage) (resp : List Char)
    (hint : Option (List Char)) (now : Nat) :
    ((hint = none ∨ hint = some []) →
      (update_message m resp hint now).hint_context = m.hint_context)
    ∧ (update_message m resp hint now).ai_response = resp
    ∧ (update_message m resp hint now).user_prompt = m.user_prompt
    ∧ (update_message m resp hint now).order_index = m.order_index
    ∧ (update_message m resp hint now).story_id = m.story_id
    ∧ (update_message m resp hint now).id = m.id
    ∧ (∀ h, hint = some h → h ≠ [] →
        (update_message m resp hint now).hint_context = some h) := by
  refine ⟨?_, rfl, rfl, rfl, rfl, rfl, ?_⟩
  · rintro (rfl | rfl) <;> rfl
  · rintro h rfl hne
    cases hi : h.isEmpty with
    | true => exact absurd (List.isEmpty_iff.mp hi) hne
    | false => simp [update_message, pyTruthy, hi]

def sampleMsg : StoryMessage :=
  { id := 1, story_id := 1, order_index := 0, user_prompt := "go".toList,
    ai_response := "tale".toList, hint_context := some ("hero".toList),
    created_at := 0, updated_at := 0 }

theorem update_message_preserves_hint_witness :
    (update_message sampleMsg ("new text".toList) (some []) 7).hint_context
      = sampleMsg.hint_context
    ∧ (update_message sampleMsg ("new text".toList) (some []) 7).ai_response
      = "new text".toList := by
  exact ⟨(update_message_preserves_hint sampleMsg ("new text".toList) (some []) 7).1
      (Or.inr rfl),
    (update_message_preserves_hint sampleMsg ("new text".toList) (some []) 7).2.1⟩

/-! ### Hints supplied to a generation call
(story_routes.py lines 502 and 725) -/

/-- The list comprehension that both generate_story_message and continue_story
use to build the hints passed to the generation call: every message hint that
is truthy, in message order. -/
def collectHints (msgs : List StoryMessage) : List (List Char) :=
  msgs.filterMap (fun m =>
    match m.hint_context with
    | none => none
    | some h => if h.isEmpty then none else some h)

/-- C5 amended: the hints supplied to a generation call are exactly the
non-empty hints of all the story's messages in their original chronological
order, with no cap at 10 and no recency or relevance selection; in particular
the hints of any suffix of messages, the most recent ones included, appear at
the end in order.  The original capped two-strategy claim is refuted by
hints_cap_refuted. -/
theorem hints_supplied_all_in_order :
    (∀ msgs : List StoryMessage,
      collectHints msgs
        = (msgs.map (fun m => m.hint_context.getD [])).filter (fun h => !h.isEmpty))
    ∧ (∀ msgs pre suf : List StoryMessage, msgs = pre ++ suf →
        collectHints msgs = collectHints pre ++ collectHints suf) := by
  constructor
  · intro msgs
    induction msgs with
    | nil => rfl
    | cons m msgs ih =>
      simp only [collectHints, List.filterMap_cons, List.map_cons, List.filter_cons]
      cases hm : m.hint_context with
      | none =>
        simp only [Option.getD_none, List.isEmpty_nil, Bool.not_true,
          Bool.false_eq_true, if_false]
        exact ih
      | some h =>
        cases hi : h.isEmpty with
        | true =>
          have hh : h = [] := List.isEmpty_iff.mp hi
          subst hh
          simp only [hi, if_pos rfl, Option.getD_some, List.isEmpty_nil,
            Bool.not_true, Bool.false_eq_true, if_false]
          exact ih
        | false =>
          simp only [hi, Bool.false_eq_true, if_false, Option.getD_some,
            Bool.not_false, if_true]
          exact congrArg (fun l => h :: l) ih
  · rintro msgs pre suf rfl
    exact List.filterMap_append pre suf _

def hintedMsg : StoryMessage :=
  { id := 0, story_id := 0, order_index := 0, user_prompt := [],
    ai_response := [], hint_context := some ("h".toList),
    created_at := 0, updated_at := 0 }

theorem hints_cap_refuted :
    (collectHints (List.replicate 11 hintedMsg)).length = 11
    ∧ ¬ (collectHints (List.replicate 11 hintedMsg)).length ≤ 10 := by
  exact ⟨by decide, by decide⟩

theorem hints_supplied_all_in_order_witness :
    collectHints ([hintedMsg] ++ [hintedMsg])
      = collectHints [hintedMsg] ++ collectHints [hintedMsg]
    ∧ collectHints [hintedMsg]
      = ([hintedMsg].map (fun m => m.hint_context.getD [])).filter
          (fun h => !h.isEmpty) := by
  exact ⟨hints_supplied_all_in_order.2 ([hintedMsg] ++ [hintedMsg])
      [hintedMsg] [hintedMsg] rfl,
    hints_supplied_all_in_order.1 [hintedMsg]⟩

/-! ### Periodic summarization (story_routes.py lines 449 to 472) -/

def userRole : List Char := "user".toList

def assistantRole : List Char := "assistant".toList

/-- trigger_periodic_summary: after a message is persisted both routes call
this helper; it issues one summarization request exactly when the story's
message count is a positive multiple of 5, over the last 10 messages, each
contributing its prompt and its response as role-tagged entries.  Modelled
from the spec: crud.get_story_summary and crud.update_story_summary are absent
from src although this helper calls them; per section 6 they are plain get and
set accessors of the per-story summary text, and generate_summary is the
external summarization call, so the returned value is the role-content batch
handed to that call, none when no call is issued. -/
def trigger_periodic_summary (msgs : List StoryMessage) :
    Option (List (List Char × List Char)) :=
  if 0 < msgs.length ∧ msgs.length % 5 = 0 then
    some (((msgs.drop (msgs.length - 10)).map
      (fun m => [(userRole, m.user_prompt), (assistantRole, m.ai_response)])).flatten)
  else none

/-- C8: a summarization call is issued if and only if the persisted message
count is a positive multiple of 5, and the summarized batch is built from the
last 10 messages, a suffix of length min 10 count, each message contributing
its prompt and its response. -/
theorem periodic_summary_trigger (msgs : List StoryMessage) :
    ((trigger_periodic_summary msgs).isSome
      ↔ 0 < msgs.length ∧ msgs.length % 5 = 0)
    ∧ (∀ batch, trigger_periodic_summary msgs = some batch →
        ∃ pre recent, msgs = pre ++ recent
          ∧ recent.length = min 10 msgs.length
          ∧ batch = (recent.map
              (fun m => [(userRole, m.user_prompt), (assistantRole, m.ai_response)])).flatten) := by
  constructor
  · constructor
    · intro h
      by_contra hc
      rw [trigger_periodic_summary, if_neg hc] at h
      simp at h
    · intro h
      rw [trigger_periodic_summary, if_pos h]
      rfl
  · intro batch h
    by_cases hc : 0 < msgs.length ∧ msgs.length % 5 = 0
    · rw [trigger_periodic_summary, if_pos hc] at h
      refine ⟨msgs.take (msgs.length - 10), msgs.drop (msgs.length - 10),
        (List.take_append_drop _ msgs).symm, ?_, (Option.some.inj h).symm⟩
      rw [List.length_drop]
      omega
    · rw [trigger_periodic_summary, if_neg hc] at h
      exact Option.noConfusion h

theorem periodic_summary_trigger_witness :
    (trigger_periodic_summary (List.replicate 5 sampleMsg)).isSome = true
    ∧ ∃ pre recent, List.replicate 5 sampleMsg = pre ++ recent
        ∧ recent.length = min 10 (List.replicate 5 sampleMsg).length
        ∧ ((List.replicate 5 sampleMsg).map
            (fun m => [(userRole, m.user_prompt), (assistantRole, m.ai_response)])).flatten
          = (recent.map
            (fun m => [(userRole, m.user_prompt), (assistantRole, m.ai_response)])).flatten := by
  constructor
  · exact (periodic_summary_trigger (List.replicate 5 sampleMsg)).1.mpr (by decide)
  · exact (periodic_summary_trigger (List.replicate 5 sampleMsg)).2
      (((List.replicate 5 sampleMsg).map
        (fun m => [(userRole, m.user_prompt), (assistantRole, m.ai_response)])).flatten)
      (by decide)

/-! ### The caller-facing operation contract (hints.py against story_routes.py) -/

/-- The keyword parameters accepted by hints.generate_continuation
(hints.py lines 176 to 180). -/
def generate_continuation_params : List (List Char) :=
  ["user_prompt", "genre", "all_previous_hints"].map String.toList

/-- The keyword parameters accepted by hints.generate_story_with_context
(hints.py lines 54 to 59). -/
def generate_story_with_context_params : List (List Char) :=
  ["user_prompt", "genre", "previous_hints", "previous_content_summary"].map String.toList

/-- The keyword parameters accepted by hints.refine_single_segment
(hints.py lines 122 to 126). -/
def refine_single_segment_params : List (List Char) :=
  ["original_text", "refine_prompt", "previous_hints"].map String.toList

/-- The keyword arguments the routes pass to generate_continuation
(story_routes.py lines 532 to 540 and 743 to 751). -/
def continue_story_call_kwargs : List (List Char) :=
  ["user_prompt", "genre", "history", "summary", "all_previous_hints",
   "previous_nsi", "world_rules"].map String.toList

/-- The keyword arguments generate_story_message passes to
generate_story_with_context (story_routes.py lines 521 to 529). -/
def generate_route_call_kwargs : List (List Char) :=
  ["user_prompt", "genre", "history", "summary", "previous_hints",
   "previous_nsi", "world_rules"].map String.toList

/-- The keyword arguments refine_message passes to refine_single_segment
(story_routes.py lines 646 to 654). -/
def refine_route_call_kwargs : List (List Char) :=
  ["original_text", "refine_prompt", "history", "summary", "previous_hints",
   "previous_nsi", "world_rules"].map String.toList

/-- A Python keyword call binds without a TypeError exactly when every keyword
argument names a declared parameter. -/
def callBinds (params kwargs : List (List Char)) : Bool :=
  kwargs.all (fun k => params.contains k)

/-- The length of the tuple the hints.py generation functions return:
(story_text, new_hint), hints.py lines 115, 169 and 233. -/
def hints_result_arity : Nat := 2

/-- The number of values each route unpacks from a generation call:
(text, new_hint, violations, updated_rules), story_routes.py lines 521, 532,
646 and 743. -/
def route_unpack_arity : Nat := 4

/-- C6 refuted on the code: the routes invoke the generation, continuation and
refinement operations with the context keywords history, summary, previous_nsi
and world_rules, which the hints.py functions do not declare, and unpack four
values where those functions return two, so every such invocation raises a
TypeError instead of returning the claimed 4-tuple. -/
theorem generation_call_contract_mismatch :
    callBinds generate_continuation_params continue_story_call_kwargs = false
    ∧ callBinds generate_story_with_context_params generate_route_call_kwargs = false
    ∧ callBinds refine_single_segment_params refine_route_call_kwargs = false
    ∧ hints_result_arity ≠ route_unpack_arity := by
  exact ⟨by decide, by decide, by decide, by decide⟩
